import Mathlib

/-!
Shallow embedding of `src/btop/broadcast-server.py`: the ANSI frame parser
(`parse_ansi_to_cells`, `get_256_color`) and the per-connection delta
broadcaster logic of `BroadcastHandler.handle_sse`.

Fallible Python operations (list indexing, `int(...)`) are modelled in the
`Except String` monad, so that "the parser never raises" is a provable
statement; exception propagation is explicit error short-circuiting.
-/

set_option maxRecDepth 4000

instance exceptDecEq {ε α : Type} [DecidableEq ε] [DecidableEq α] :
    DecidableEq (Except ε α) := fun x y =>
  match x, y with
  | .ok a, .ok b =>
    if h : a = b then isTrue (by rw [h]) else isFalse (by simp [h])
  | .error a, .error b =>
    if h : a = b then isTrue (by rw [h]) else isFalse (by simp [h])
  | .ok _, .error _ => isFalse (by simp)
  | .error _, .ok _ => isFalse (by simp)

def COLS : Nat := 132
def ROWS : Nat := 43
def TOTAL_CELLS : Nat := COLS * ROWS

/-- The 16-entry base ANSI palette `COLORS_16` of the source. -/
def COLORS_16 : List String :=
  ["000000", "aa0000", "00aa00", "aa5500",
   "0000aa", "aa00aa", "00aaaa", "aaaaaa",
   "555555", "ff5555", "55ff55", "ffff55",
   "5555ff", "ff55ff", "55ffff", "ffffff"]

/-- One display cell, the Python list `[char, fg, bg, bold]`. -/
structure Cell where
  ch : Char
  fg : Option String
  bg : Option String
  bold : Nat
deriving DecidableEq, Repr

/-- The blank padding cell `[' ', None, None, 0]`. -/
def blankCell : Cell := ⟨' ', none, none, 0⟩

/-- Lowercase hexadecimal digit character for `n < 16`. -/
def hexDigit (n : Nat) : Char :=
  if n < 10 then Char.ofNat (48 + n) else Char.ofNat (87 + n)

/-- Hex digits of `n`, most significant first (`fuel` bounds recursion;
`toHexAux n n` is exact since `n` has at most `n` digits for `n > 0`). -/
def toHexAux : Nat → Nat → List Char
  | 0, _ => []
  | _, 0 => []
  | fuel + 1, n => toHexAux fuel (n / 16) ++ [hexDigit (n % 16)]

/-- Python format `f-string {n:02x}`: lowercase hex, left zero-padded to
width 2, longer when `n > 255`. -/
def toHex2 (n : Nat) : String :=
  let ds := if n = 0 then ['0'] else toHexAux n n
  ⟨List.replicate (2 - ds.length) '0' ++ ds⟩

/-- The source's `get_256_color(n)`: 256-color index to hex string. The
palette access `COLORS_16[n]` is a checked lookup. -/
def get_256_color (n : Nat) : Except String String :=
  if n < 16 then
    match COLORS_16.get? n with
    | some c => .ok c
    | none => .error "IndexError"
  else if n < 232 then
    let m := n - 16
    .ok (toHex2 (m / 36 * 51) ++ toHex2 (m % 36 / 6 * 51) ++ toHex2 (m % 6 * 51))
  else
    let gray := (n - 232) * 10 + 8
    .ok (toHex2 gray ++ toHex2 gray ++ toHex2 gray)

/-- The parser's running attribute state: variables `fg`, `bg`, `bold`. -/
structure AttrState where
  fg : Option String
  bg : Option String
  bold : Nat
deriving DecidableEq, Repr

/-- The state at parse start: `fg = None`, `bg = None`, `bold = 0`. -/
def initAttrState : AttrState := ⟨none, none, 0⟩

/-- One non-parameterised style code of the source's `while i < len(codes)`
loop (codes 38/48 with parameters are handled in `applyCodes`). Unknown
codes leave the state unchanged. -/
def applyOne (c : Nat) (st : AttrState) : Except String AttrState :=
  if c = 0 then .ok ⟨none, none, 0⟩
  else if c = 1 then .ok { st with bold := 1 }
  else if c = 22 then .ok { st with bold := 0 }
  else if c = 39 then .ok { st with fg := none }
  else if c = 49 then .ok { st with bg := none }
  else if 30 ≤ c ∧ c ≤ 37 then
    match COLORS_16.get? (c - 30) with
    | some s => .ok { st with fg := some s }
    | none => .error "IndexError"
  else if 40 ≤ c ∧ c ≤ 47 then
    match COLORS_16.get? (c - 40) with
    | some s => .ok { st with bg := some s }
    | none => .error "IndexError"
  else if 90 ≤ c ∧ c ≤ 97 then
    match COLORS_16.get? (c - 90 + 8) with
    | some s => .ok { st with fg := some s }
    | none => .error "IndexError"
  else if 100 ≤ c ∧ c ≤ 107 then
    match COLORS_16.get? (c - 100 + 8) with
    | some s => .ok { st with bg := some s }
    | none => .error "IndexError"
  else .ok st

/-- The code-application loop: `38;5;N` / `48;5;N` consume two extra codes,
`38;2;R;G;B` / `48;2;R;G;B` four (the Python guards `i + 2 < len(codes)`,
`codes[i+1] == 5` etc. become list patterns); everything else advances by
one code via `applyOne`. -/
def applyCodes : List Nat → AttrState → Except String AttrState
  | [], st => .ok st
  | 38 :: 5 :: n :: rest, st =>
    match get_256_color n with
    | .ok c => applyCodes rest { st with fg := some c }
    | .error e => .error e
  | 38 :: 2 :: r :: g :: b :: rest, st =>
    applyCodes rest { st with fg := some (toHex2 r ++ toHex2 g ++ toHex2 b) }
  | 48 :: 5 :: n :: rest, st =>
    match get_256_color n with
    | .ok c => applyCodes rest { st with bg := some c }
    | .error e => .error e
  | 48 :: 2 :: r :: g :: b :: rest, st =>
    applyCodes rest { st with bg := some (toHex2 r ++ toHex2 g ++ toHex2 b) }
  | c :: rest, st =>
    match applyOne c st with
    | .ok st2 => applyCodes rest st2
    | .error e => .error e

/-- Characters accepted inside an escape sequence: the class `[0-9;]`. -/
def isCodeChar (c : Char) : Bool := c.isDigit || c = ';'

/-- The anchored regex match `\x1b\[([0-9;]*)m` at the head of the
remaining line: returns the captured code characters and the rest of the
line after `m`. Backtracking is irrelevant: no `[0-9;]` character is `m`,
so only the maximal code run can be followed by the literal `m`. -/
def matchAnsi (line : List Char) : Option (List Char × List Char) :=
  match line with
  | c1 :: c2 :: body =>
    if c1 = '\x1b' ∧ c2 = '[' then
      match body.dropWhile isCodeChar with
      | d :: rest2 =>
        if d = 'm' then some (body.takeWhile isCodeChar, rest2) else none
      | [] => none
    else none
  | _ => none

/-- Python `str.split(sep)` on a single separator character. -/
def splitChar (sep : Char) : List Char → List (List Char)
  | [] => [[]]
  | c :: rest =>
    if c = sep then [] :: splitChar sep rest
    else
      match splitChar sep rest with
      | p :: ps => (c :: p) :: ps
      | [] => [[c]]

/-- Python `int(s)` on a decimal string: raises `ValueError` unless the
string is nonempty and all digits. -/
def intOfString (cs : List Char) : Except String Nat :=
  if cs ≠ [] ∧ cs.all Char.isDigit then
    .ok (cs.foldl (fun a c => a * 10 + (c.toNat - 48)) 0)
  else .error "ValueError"

/-- The list comprehension `[int(c) for c in pieces]`, left to right. -/
def mapIntos : List (List Char) → Except String (List Nat)
  | [] => .ok []
  | p :: ps =>
    match intOfString p with
    | .ok n =>
      match mapIntos ps with
      | .ok ns => .ok (n :: ns)
      | .error e => .error e
    | .error e => .error e

/-- The source line `codes = [int(c) for c in codes_str.split(';') if c]
if codes_str else [0]`. -/
def parseCodes (cs : List Char) : Except String (List Nat) :=
  if cs = [] then .ok [0]
  else mapIntos ((splitChar ';' cs).filter (· ≠ []))

/-- The per-row scan loop `while col < COLS and pos < len(line)`. The
remaining line is consumed from the front; `fuel` bounds recursion and
`fuel = line.length` is always sufficient since every iteration consumes
at least one character (see `parseRowAux_fuel`). Returns the emitted cells
of the row (unpadded) and the final attribute state. -/
def parseRowAux : Nat → List Char → Nat → AttrState → Except String (List Cell × AttrState)
  | 0, _, _, st => .ok ([], st)
  | fuel + 1, line, col, st =>
    if col < COLS then
      match matchAnsi line with
      | some (cs, rest) =>
        match parseCodes cs with
        | .ok codes =>
          match applyCodes codes st with
          | .ok st2 => parseRowAux fuel rest col st2
          | .error e => .error e
        | .error e => .error e
      | none =>
        match line with
        | [] => .ok ([], st)
        | ch :: rest =>
          match parseRowAux fuel rest (col + 1) st with
          | .ok (cells, st2) => .ok (⟨ch, st.fg, st.bg, st.bold⟩ :: cells, st2)
          | .error e => .error e
    else .ok ([], st)

/-- One row scan, with exactly enough fuel for the whole line. -/
def parseRow (line : List Char) (col : Nat) (st : AttrState) :
    Except String (List Cell × AttrState) :=
  parseRowAux line.length line col st

/-- The `while col < COLS` padding loop: pad a row to COLS blank cells. -/
def padRow (cells : List Cell) : List Cell :=
  cells ++ List.replicate (COLS - cells.length) blankCell

/-- The `for row in range(ROWS)` loop: `lines[row] if row < len(lines)
else ''`, threading the attribute state across rows as the source does. -/
def parseAllRows : List (List Char) → Nat → AttrState → Except String (List Cell)
  | _, 0, _ => .ok []
  | lines, r + 1, st =>
    match parseRow (lines.headD []) 0 st with
    | .ok (rowCells, st2) =>
      match parseAllRows lines.tail r st2 with
      | .ok rest => .ok (padRow rowCells ++ rest)
      | .error e => .error e
    | .error e => .error e

/-- The source's `parse_ansi_to_cells(ansi)`, in the checked monad:
split on newlines, keep at most ROWS lines, scan each row, then the final
`while len(cells) < TOTAL_CELLS` padding loop. -/
def parse_ansi_to_cellsE (ansi : String) : Except String (List Cell) :=
  match parseAllRows ((splitChar '\n' ansi.data).take ROWS) ROWS initAttrState with
  | .ok cells => .ok (cells ++ List.replicate (TOTAL_CELLS - cells.length) blankCell)
  | .error e => .error e

/-- The parser as a plain function (it never errors, see the totality
theorem). -/
def parse_ansi_to_cells (ansi : String) : List Cell :=
  (parse_ansi_to_cellsE ansi).toOption.getD []

/-- A message of the SSE stream: `{'t':'f','c':cells}` or
`{'t':'d','d':deltas}`. -/
inductive Msg where
  | full (c : List Cell)
  | delta (d : List (Nat × Cell))
deriving DecidableEq, Repr

/-- The delta loop `for i, (new, old) in enumerate(zip(cells, last_cells))`
with running index `i`. -/
def computeDeltasAux : Nat → List Cell → List Cell → List (Nat × Cell)
  | _, [], _ => []
  | _, _ :: _, [] => []
  | i, n :: ns, o :: os =>
    if n ≠ o then (i, n) :: computeDeltasAux (i + 1) ns os
    else computeDeltasAux (i + 1) ns os

/-- The deltas computed against the last-sent snapshot. -/
def computeDeltas (cells lastCells : List Cell) : List (Nat × Cell) :=
  computeDeltasAux 0 cells lastCells

/-- One cycle of `handle_sse` once a frame is available: given this
connection's last-sent snapshot and the current shared frame, the emitted
message (if any) and the new snapshot. The float test
`len(deltas) > TOTAL_CELLS * 0.5` is exact (5676 * 0.5 = 2838.0), hence
`TOTAL_CELLS < 2 * len`. -/
def broadcastStep (lastCells : Option (List Cell)) (cells : List Cell) :
    Option Msg × List Cell :=
  match lastCells with
  | none => (some (Msg.full cells), cells)
  | some lc =>
    if (computeDeltas cells lc).length = 0 then (none, lc)
    else if TOTAL_CELLS < 2 * (computeDeltas cells lc).length then
      (some (Msg.full cells), cells)
    else (some (Msg.delta (computeDeltas cells lc)), cells)

/-- Applying a delta message to a frame: set each listed index to the
listed cell. -/
def applyDelta (frame : List Cell) (d : List (Nat × Cell)) : List Cell :=
  d.foldl (fun acc p => acc.set p.1 p.2) frame

/-- A whole connection run of `handle_sse`: the trace lists the values
read from the shared frame slot (None while not ready); `last_cells`
starts as None. Returns the messages emitted in order. -/
def runConn : List (Option (List Cell)) → Option (List Cell) → List Msg
  | [], _ => []
  | none :: rest, lastCells => runConn rest lastCells
  | some cells :: rest, lastCells =>
    match broadcastStep lastCells cells with
    | (some m, lc) => m :: runConn rest (some lc)
    | (none, lc) => runConn rest (some lc)

/-- The first available frame in a trace of shared-slot reads. -/
def firstSome : List (Option (List Cell)) → Option (List Cell)
  | [] => none
  | none :: rest => firstSome rest
  | some c :: _ => some c

/-- The number of positions at which two frames hold different cells. -/
def diffCount : List Cell → List Cell → Nat
  | n :: ns, o :: os => (if n ≠ o then 1 else 0) + diffCount ns os
  | _, _ => 0

/-- Lowercase hexadecimal digit characters. -/
def isHexChar (c : Char) : Bool := c.isDigit || ('a' ≤ c && c ≤ 'f')

/-- A canonical lowercase 6-hex-digit color string. -/
def hex6 (s : String) : Bool := s.length == 6 && s.data.all isHexChar

/-- A color field is unset or a lowercase 6-hex-digit string. -/
def colorOk : Option String → Bool
  | none => true
  | some s => hex6 s

/-- Both color fields of a cell satisfy `colorOk`. -/
def cellColorOk (c : Cell) : Bool := colorOk c.fg && colorOk c.bg

/-- Both color fields of the attribute state satisfy `colorOk`. -/
def stColorOk (st : AttrState) : Bool := colorOk st.fg && colorOk st.bg

/-- The style codes `applyOne` recognises; everything else is ignored. -/
def recognized (c : Nat) : Bool :=
  c == 0 || c == 1 || c == 22 || c == 39 || c == 49 ||
  (30 ≤ c && c ≤ 37) || (40 ≤ c && c ≤ 47) ||
  (90 ≤ c && c ≤ 97) || (100 ≤ c && c ≤ 107)

/-- Every escape sequence scanned in a row carries only numeric parameters
at most 255 (the well-formed ANSI range). Mirrors the scan of
`parseRowAux` position for position. -/
def rowBoundedAux : Nat → List Char → Bool
  | 0, _ => true
  | fuel + 1, line =>
    match matchAnsi line with
    | some (cs, rest) =>
      match parseCodes cs with
      | .ok codes => codes.all (· ≤ 255) && rowBoundedAux fuel rest
      | .error _ => false
    | none =>
      match line with
      | [] => true
      | _ :: rest => rowBoundedAux fuel rest

/-- Row-level boundedness with exactly enough fuel for the line. -/
def rowBounded (line : List Char) : Bool := rowBoundedAux line.length line

/-- Concrete frame cell used by witnesses. -/
def cellX : Cell := ⟨'X', none, none, 0⟩

/-- Witness frame pair differing in exactly the first cell. -/
def frameA1 : List Cell := cellX :: List.replicate 5675 blankCell

/-- Witness frame of all blanks, same length as `frameA1`. -/
def frameB1 : List Cell := blankCell :: List.replicate 5675 blankCell

/-- Witness frame of all blanks. -/
def frameA2 : List Cell := List.replicate 5676 blankCell

/-- Witness frame differing from `frameA2` everywhere. -/
def frameB2 : List Cell := List.replicate 5676 cellX

theorem computeDeltasAux_self (xs : List Cell) : ∀ i, computeDeltasAux i xs xs = [] := by
  induction xs with
  | nil => intro i; rfl
  | cons x xs ih => intro i; simp [computeDeltasAux, ih]

theorem diffCount_self (xs : List Cell) : diffCount xs xs = 0 := by
  induction xs with
  | nil => rfl
  | cons x xs ih => simp [diffCount, ih]

theorem diffCount_cons (n o : Cell) (ns os : List Cell) :
    diffCount (n :: ns) (o :: os) = (if n ≠ o then 1 else 0) + diffCount ns os := rfl

theorem computeDeltasAux_length (ns : List Cell) :
    ∀ (os : List Cell) (i : Nat), (computeDeltasAux i ns os).length = diffCount ns os := by
  induction ns with
  | nil => intro os i; cases os <;> simp [computeDeltasAux, diffCount]
  | cons n ns ih =>
    intro os i
    cases os with
    | nil => simp [computeDeltasAux, diffCount]
    | cons o os =>
      by_cases h : n = o <;> simp [computeDeltasAux, diffCount, h, ih] <;> omega

theorem diffCount_replicate (x y : Cell) (h : x ≠ y) :
    ∀ n, diffCount (List.replicate n x) (List.replicate n y) = n := by
  intro n
  induction n with
  | zero => rfl
  | succ k ih => simp [List.replicate_succ, diffCount_cons, h, ih] <;> omega

theorem computeDeltasAux_cons_ne {n o : Cell} (ns os : List Cell) (j : Nat) (h : n ≠ o) :
    computeDeltasAux j (n :: ns) (o :: os) = (j, n) :: computeDeltasAux (j + 1) ns os := by
  simp [computeDeltasAux, h]

theorem computeDeltasAux_cons_eq {n o : Cell} (ns os : List Cell) (j : Nat) (h : n = o) :
    computeDeltasAux j (n :: ns) (o :: os) = computeDeltasAux (j + 1) ns os := by
  simp [computeDeltasAux, h]

theorem mem_computeDeltasAux (ns : List Cell) :
    ∀ (os : List Cell) (j i : Nat) (c : Cell),
      (i, c) ∈ computeDeltasAux j ns os ↔
        ∃ k, i = j + k ∧ ns.get? k = some c ∧ ∃ o, os.get? k = some o ∧ c ≠ o := by
  induction ns with
  | nil => intro os j i c; cases os <;> simp [computeDeltasAux]
  | cons n ns ih =>
    intro os j i c
    cases os with
    | nil => simp [computeDeltasAux]
    | cons o os =>
      by_cases hno : n = o
      · rw [computeDeltasAux_cons_eq ns os j hno, ih os (j + 1) i c]
        subst hno
        constructor
        · rintro ⟨k, hk, h2, o2, h3, h4⟩
          exact ⟨k + 1, by omega, by simpa using h2, o2, by simpa using h3, h4⟩
        · rintro ⟨k, hk, h2, o2, h3, h4⟩
          cases k with
          | zero => simp_all
          | succ k =>
            exact ⟨k, by omega, by simpa using h2, o2, by simpa using h3, h4⟩
      · rw [computeDeltasAux_cons_ne ns os j hno]
        simp only [List.mem_cons, Prod.mk.injEq, ih os (j + 1) i c]
        constructor
        · rintro (⟨hij, hcn⟩ | ⟨k, hk, h2, o2, h3, h4⟩)
          · subst hij; subst hcn
            exact ⟨0, by omega, by simp, o, by simp, hno⟩
          · exact ⟨k + 1, by omega, by simpa using h2, o2, by simpa using h3, h4⟩
        · rintro ⟨k, hk, h2, o2, h3, h4⟩
          cases k with
          | zero =>
            left
            refine ⟨by omega, ?_⟩
            simp_all
          | succ k =>
            right
            exact ⟨k, by omega, by simpa using h2, o2, by simpa using h3, h4⟩

theorem applyDelta_cons (f : List Cell) (p : Nat × Cell) (d : List (Nat × Cell)) :
    applyDelta f (p :: d) = applyDelta (f.set p.1 p.2) d := rfl

theorem set_append_cons (pre : List Cell) (o : Cell) (os : List Cell) (n : Cell) :
    (pre ++ o :: os).set pre.length n = pre ++ n :: os := by
  induction pre with
  | nil => rfl
  | cons p ps ih => simp [List.set, ih]

theorem applyDelta_computeDeltasAux (ns : List Cell) :
    ∀ (os pre : List Cell), ns.length = os.length →
      applyDelta (pre ++ os) (computeDeltasAux pre.length ns os) = pre ++ ns := by
  induction ns with
  | nil =>
    intro os pre h
    cases os with
    | nil => rfl
    | cons o os => simp at h
  | cons n ns ih =>
    intro os pre h
    cases os with
    | nil => simp at h
    | cons o os =>
      have hlen : ns.length = os.length := by simpa using h
      by_cases hno : n = o
      · subst hno
        rw [computeDeltasAux_cons_eq ns os pre.length rfl]
        have := ih os (pre ++ [n]) hlen
        simpa [List.append_assoc] using this
      · rw [computeDeltasAux_cons_ne ns os pre.length hno, applyDelta_cons,
            set_append_cons]
        have := ih os (pre ++ [n]) hlen
        simpa [List.append_assoc] using this

theorem colors16_lookup : ∀ k, k < 16 → COLORS_16.get? k = some (COLORS_16.getD k "") := by
  decide

theorem get_256_color_ok (n : Nat) : ∃ s, get_256_color n = .ok s := by
  by_cases h16 : n < 16
  · exact ⟨_, by rw [get_256_color, if_pos h16, colors16_lookup n h16]⟩
  · by_cases h232 : n < 232
    · exact ⟨_, by rw [get_256_color, if_neg h16, if_pos h232]⟩
    · exact ⟨_, by rw [get_256_color, if_neg h16, if_neg h232]⟩

theorem applyOne_ok (c : Nat) (st : AttrState) : ∃ st2, applyOne c st = .ok st2 := by
  unfold applyOne
  repeat' split
  all_goals try exact ⟨_, rfl⟩
  all_goals
    rename_i hc heq
    rw [colors16_lookup _ (by omega)] at heq
    exact Option.noConfusion heq

theorem applyCodes_ok (codes : List Nat) (st : AttrState) :
    ∃ st2, applyCodes codes st = .ok st2 := by
  induction codes, st using applyCodes.induct with
  | case1 st => exact ⟨st, rfl⟩
  | case2 n rest st c hc ih =>
    obtain ⟨st2, h2⟩ := ih
    exact ⟨st2, by simp [applyCodes, hc, h2]⟩
  | case3 n rest st e he =>
    obtain ⟨s, hs⟩ := get_256_color_ok n
    rw [hs] at he
    exact Except.noConfusion he
  | case4 r g b rest st ih =>
    obtain ⟨st2, h2⟩ := ih
    exact ⟨st2, by simp [applyCodes, h2]⟩
  | case5 n rest st c hc ih =>
    obtain ⟨st2, h2⟩ := ih
    exact ⟨st2, by simp [applyCodes, hc, h2]⟩
  | case6 n rest st e he =>
    obtain ⟨s, hs⟩ := get_256_color_ok n
    rw [hs] at he
    exact Except.noConfusion he
  | case7 r g b rest st ih =>
    obtain ⟨st2, h2⟩ := ih
    exact ⟨st2, by simp [applyCodes, h2]⟩
  | case8 c rest st h1 h2 h3 h4 st2 hap ih =>
    obtain ⟨st3, h5⟩ := ih
    refine ⟨st3, ?_⟩
    rw [applyCodes.eq_def]
    split
    · rename_i heq; exact absurd heq (by simp)
    · rename_i n rest2 heq
      simp at heq
      exact (h1 n rest2 heq.1 heq.2).elim
    · rename_i r g b rest2 heq
      simp at heq
      exact (h2 r g b rest2 heq.1 heq.2).elim
    · rename_i n rest2 heq
      simp at heq
      exact (h3 n rest2 heq.1 heq.2).elim
    · rename_i r g b rest2 heq
      simp at heq
      exact (h4 r g b rest2 heq.1 heq.2).elim
    · rename_i c2 rest2 hno1 hno2 hno3 hno4 heq
      simp at heq
      rw [← heq.1, ← heq.2, hap]
      show applyCodes rest st2 = Except.ok st3
      exact h5
  | case9 c rest st h1 h2 h3 h4 e hap =>
    obtain ⟨st2, h⟩ := applyOne_ok c st
    rw [h] at hap
    exact Except.noConfusion hap

theorem dropWhile_length_le (p : Char → Bool) (l : List Char) :
    (l.dropWhile p).length ≤ l.length := by
  induction l with
  | nil => simp [List.dropWhile]
  | cons c cs ih =>
    by_cases h : p c <;> simp [List.dropWhile_cons, h] <;> omega

theorem matchAnsi_some {line cs rest : List Char} (h : matchAnsi line = some (cs, rest)) :
    ∃ c1 c2 body, line = c1 :: c2 :: body ∧ cs = body.takeWhile isCodeChar ∧
      body.dropWhile isCodeChar = 'm' :: rest := by
  match line with
  | [] => simp [matchAnsi] at h
  | [c1] => simp [matchAnsi] at h
  | c1 :: c2 :: body =>
    refine ⟨c1, c2, body, rfl, ?_⟩
    cases hdw : body.dropWhile isCodeChar with
    | nil => simp [matchAnsi, hdw] at h
    | cons d rest2 =>
      simp only [matchAnsi, hdw] at h
      by_cases hcc : c1 = '\x1b' ∧ c2 = '['
      · rw [if_pos hcc] at h
        by_cases hdm : d = 'm'
        · rw [if_pos hdm] at h
          injection h with h'
          injection h' with h1 h2
          subst hdm
          exact ⟨h1.symm, by rw [h2]⟩
        · rw [if_neg hdm] at h
          exact Option.noConfusion h
      · rw [if_neg hcc] at h
        exact Option.noConfusion h

theorem matchAnsi_length_lt {line cs rest : List Char}
    (h : matchAnsi line = some (cs, rest)) : rest.length < line.length := by
  obtain ⟨c1, c2, body, hline, hcs, hdw⟩ := matchAnsi_some h
  subst hline
  have h1 : (body.dropWhile isCodeChar).length ≤ body.length :=
    dropWhile_length_le _ _
  rw [hdw] at h1
  simp only [List.length_cons] at h1 ⊢
  omega

theorem matchAnsi_all_code {line cs rest : List Char}
    (h : matchAnsi line = some (cs, rest)) : cs.all isCodeChar = true := by
  obtain ⟨c1, c2, body, hline, hcs, hdw⟩ := matchAnsi_some h
  subst hcs
  rw [List.all_eq_true]
  intro x hx
  exact List.mem_takeWhile_imp hx

theorem matchAnsi_none_of_no_esc {line : List Char} (h : ∀ c ∈ line, c ≠ '\x1b') :
    matchAnsi line = none := by
  match line with
  | [] => rfl
  | [c] => rfl
  | c1 :: c2 :: body =>
    have h1 : c1 ≠ '\x1b' := h c1 (by simp)
    simp only [matchAnsi]
    rw [if_neg (fun hcc => h1 hcc.1)]

theorem splitChar_pieces_digits (cs : List Char) :
    cs.all isCodeChar = true → ∀ p ∈ splitChar ';' cs, p.all Char.isDigit = true := by
  induction cs with
  | nil =>
    intro _ p hp
    simp [splitChar] at hp
    subst hp
    rfl
  | cons c rest ih =>
    intro hall p hp
    rw [List.all_cons, Bool.and_eq_true] at hall
    obtain ⟨hc, hrest⟩ := hall
    by_cases hsep : c = ';'
    · rw [splitChar, if_pos hsep] at hp
      rcases List.mem_cons.mp hp with hpe | hpm
      · subst hpe; rfl
      · exact ih hrest p hpm
    · have hcd : c.isDigit = true := by
        rw [isCodeChar, Bool.or_eq_true] at hc
        rcases hc with hc | hc
        · exact hc
        · exact absurd (by simpa using hc) hsep
      rw [splitChar, if_neg hsep] at hp
      cases hsp : splitChar ';' rest with
      | nil => rw [hsp] at hp; simp at hp; subst hp; simp [hcd]
      | cons q qs =>
        rw [hsp] at hp
        rcases List.mem_cons.mp hp with hpe | hpm
        · subst hpe
          have hq : q.all Char.isDigit = true := ih hrest q (by rw [hsp]; simp)
          simp [List.all_cons, hcd, hq]
        · exact ih hrest p (by rw [hsp]; simp [hpm])

theorem intOfString_ok (cs : List Char) (h1 : cs ≠ []) (h2 : cs.all Char.isDigit = true) :
    ∃ n, intOfString cs = .ok n :=
  ⟨_, by rw [intOfString, if_pos ⟨h1, h2⟩]⟩

theorem mapIntos_ok (ps : List (List Char))
    (h : ∀ p ∈ ps, p ≠ [] ∧ p.all Char.isDigit = true) :
    ∃ ns, mapIntos ps = .ok ns := by
  induction ps with
  | nil => exact ⟨[], rfl⟩
  | cons p ps ih =>
    obtain ⟨n, hn⟩ := intOfString_ok p (h p (by simp)).1 (h p (by simp)).2
    obtain ⟨ns, hns⟩ := ih (fun q hq => h q (by simp [hq]))
    exact ⟨n :: ns, by rw [mapIntos, hn, hns]⟩

theorem parseCodes_ok (cs : List Char) (hall : cs.all isCodeChar = true) :
    ∃ codes, parseCodes cs = .ok codes := by
  by_cases hn : cs = []
  · exact ⟨[0], by rw [parseCodes, if_pos hn]⟩
  · obtain ⟨ns, hns⟩ := mapIntos_ok ((splitChar ';' cs).filter (· ≠ []))
      (fun p hp => by
        have hmem := List.mem_filter.mp hp
        exact ⟨by simpa using hmem.2, splitChar_pieces_digits cs hall p hmem.1⟩)
    exact ⟨ns, by rw [parseCodes, if_neg hn]; exact hns⟩

theorem parseRowAux_succ (fuel : Nat) (line : List Char) (col : Nat) (st : AttrState) :
    parseRowAux (fuel + 1) line col st =
      if col < COLS then
        match matchAnsi line with
        | some (cs, rest) =>
          match parseCodes cs with
          | .ok codes =>
            match applyCodes codes st with
            | .ok st2 => parseRowAux fuel rest col st2
            | .error e => .error e
          | .error e => .error e
        | none =>
          match line with
          | [] => .ok ([], st)
          | ch :: rest =>
            match parseRowAux fuel rest (col + 1) st with
            | .ok (cells, st2) => .ok (⟨ch, st.fg, st.bg, st.bold⟩ :: cells, st2)
            | .error e => .error e
      else .ok ([], st) := rfl

theorem parseRowAux_fuel : ∀ (f g : Nat) (line : List Char) (col : Nat) (st : AttrState),
    line.length ≤ f → line.length ≤ g →
    parseRowAux f line col st = parseRowAux g line col st := by
  intro f
  induction f with
  | zero =>
    intro g line col st hf hg
    have hnil : line = [] := List.eq_nil_of_length_eq_zero (by omega)
    subst hnil
    cases g with
    | zero => rfl
    | succ k =>
      by_cases hcol : col < COLS
      · simp [parseRowAux, hcol, matchAnsi]
      · simp [parseRowAux, hcol]
  | succ f ih =>
    intro g line col st hf hg
    cases g with
    | zero =>
      have hnil : line = [] := List.eq_nil_of_length_eq_zero (by omega)
      subst hnil
      by_cases hcol : col < COLS
      · simp [parseRowAux, hcol, matchAnsi]
      · simp [parseRowAux, hcol]
    | succ k =>
      by_cases hcol : col < COLS
      · cases hma : matchAnsi line with
        | some x =>
          obtain ⟨cs, rest⟩ := x
          have hlt := matchAnsi_length_lt hma
          simp only [parseRowAux, if_pos hcol, hma]
          cases hpc : parseCodes cs with
          | error e => simp only [hpc]
          | ok codes =>
            simp only [hpc]
            cases hac : applyCodes codes st with
            | error e => simp only [hac]
            | ok st2 =>
              simp only [hac]
              exact ih k rest col st2 (by omega) (by omega)
        | none =>
          cases line with
          | nil => simp [parseRowAux, hcol, matchAnsi]
          | cons ch rest =>
            simp only [parseRowAux, if_pos hcol, hma]
            have hr : rest.length ≤ f := by
              simp only [List.length_cons] at hf
              omega
            have hr2 : rest.length ≤ k := by
              simp only [List.length_cons] at hg
              omega
            rw [ih k rest (col + 1) st hr hr2]
      · simp [parseRowAux, hcol]

theorem parseRowAux_ok : ∀ (fuel : Nat) (line : List Char) (col : Nat) (st : AttrState),
    ∃ out, parseRowAux fuel line col st = .ok out := by
  intro fuel
  induction fuel with
  | zero => intro line col st; exact ⟨([], st), rfl⟩
  | succ f ih =>
    intro line col st
    by_cases hcol : col < COLS
    · cases hma : matchAnsi line with
      | some x =>
        obtain ⟨cs, rest⟩ := x
        obtain ⟨codes, hcodes⟩ := parseCodes_ok cs (matchAnsi_all_code hma)
        obtain ⟨st2, hst2⟩ := applyCodes_ok codes st
        obtain ⟨out, hout⟩ := ih rest col st2
        exact ⟨out, by simp [parseRowAux, hcol, hma, hcodes, hst2, hout]⟩
      | none =>
        cases line with
        | nil => exact ⟨([], st), by simp [parseRowAux, hcol, matchAnsi]⟩
        | cons ch rest =>
          obtain ⟨⟨cells, st2⟩, hout⟩ := ih rest (col + 1) st
          exact ⟨(⟨ch, st.fg, st.bg, st.bold⟩ :: cells, st2),
            by simp [parseRowAux, hcol, hma, hout]⟩
    · exact ⟨([], st), by simp [parseRowAux, hcol]⟩

theorem parseAllRows_ok : ∀ (r : Nat) (lines : List (List Char)) (st : AttrState),
    ∃ cells, parseAllRows lines r st = .ok cells := by
  intro r
  induction r with
  | zero => intro lines st; exact ⟨[], rfl⟩
  | succ k ih =>
    intro lines st
    obtain ⟨⟨rowCells, st2⟩, hrow⟩ :=
      parseRowAux_ok (lines.headD []).length (lines.headD []) 0 st
    obtain ⟨rest, hrest⟩ := ih lines.tail st2
    exact ⟨padRow rowCells ++ rest, by simp only [parseAllRows, parseRow, hrow, hrest]⟩

theorem parseE_total (ansi : String) : ∃ cells, parse_ansi_to_cellsE ansi = .ok cells := by
  obtain ⟨cells, h⟩ :=
    parseAllRows_ok ROWS ((splitChar '\n' ansi.data).take ROWS) initAttrState
  exact ⟨_, by rw [parse_ansi_to_cellsE, h]⟩

theorem parseE_eq_pure (ansi : String) :
    parse_ansi_to_cellsE ansi = .ok (parse_ansi_to_cells ansi) := by
  obtain ⟨cells, h⟩ := parseE_total ansi
  rw [parse_ansi_to_cells, h]
  rfl

theorem parseAllRows_zero (lines : List (List Char)) (st : AttrState) :
    parseAllRows lines 0 st = .ok [] := rfl

theorem parseAllRows_succ (lines : List (List Char)) (r : Nat) (st : AttrState) :
    parseAllRows lines (r + 1) st =
      match parseRow (lines.headD []) 0 st with
      | .ok (rowCells, st2) =>
        match parseAllRows lines.tail r st2 with
        | .ok rest => .ok (padRow rowCells ++ rest)
        | .error e => .error e
      | .error e => .error e := rfl

theorem parseRowAux_length : ∀ (fuel : Nat) (line : List Char) (col : Nat) (st : AttrState)
    (cells : List Cell) (st2 : AttrState),
    parseRowAux fuel line col st = .ok (cells, st2) → cells.length ≤ COLS - col := by
  intro fuel
  induction fuel with
  | zero =>
    intro line col st cells st2 h
    injection h with h'
    injection h' with h1 h2
    rw [← h1]
    simp
  | succ f ih =>
    intro line col st cells st2 h
    rw [parseRowAux_succ] at h
    by_cases hcol : col < COLS
    · rw [if_pos hcol] at h
      cases hma : matchAnsi line with
      | some x =>
        obtain ⟨cs, rest⟩ := x
        simp only [hma] at h
        cases hpc : parseCodes cs with
        | error e => rw [hpc] at h; exact Except.noConfusion h
        | ok codes =>
          simp only [hpc] at h
          cases hac : applyCodes codes st with
          | error e => rw [hac] at h; exact Except.noConfusion h
          | ok st3 =>
            simp only [hac] at h
            exact ih rest col st3 cells st2 h
      | none =>
        simp only [hma] at h
        cases line with
        | nil =>
          injection h with h'
          injection h' with h1 h2
          rw [← h1]
          simp
        | cons ch rest =>
          cases hrec : parseRowAux f rest (col + 1) st with
          | error e => simp only [hrec] at h; exact Except.noConfusion h
          | ok out =>
            obtain ⟨cells3, st3⟩ := out
            simp only [hrec] at h
            injection h with h'
            injection h' with h1 h2
            have hlen3 := ih rest (col + 1) st cells3 st3 hrec
            rw [← h1]
            simp only [List.length_cons]
            omega
    · rw [if_neg hcol] at h
      injection h with h'
      injection h' with h1 h2
      rw [← h1]
      simp

theorem padRow_length (cells : List Cell) (h : cells.length ≤ COLS) :
    (padRow cells).length = COLS := by
  rw [padRow, List.length_append, List.length_replicate]
  omega

theorem parseAllRows_length : ∀ (r : Nat) (lines : List (List Char)) (st : AttrState)
    (cells : List Cell),
    parseAllRows lines r st = .ok cells → cells.length = r * COLS := by
  intro r
  induction r with
  | zero =>
    intro lines st cells h
    injection h with h'
    rw [← h']
    rfl
  | succ k ih =>
    intro lines st cells h
    rw [parseAllRows_succ] at h
    cases hrow : parseRow (lines.headD []) 0 st with
    | error e => rw [hrow] at h; exact Except.noConfusion h
    | ok out =>
      obtain ⟨rowCells, st2⟩ := out
      simp only [hrow] at h
      cases hrest : parseAllRows lines.tail k st2 with
      | error e => rw [hrest] at h; exact Except.noConfusion h
      | ok rest =>
        simp only [hrest] at h
        injection h with h'
        rw [← h']
        have h1 : rowCells.length ≤ COLS := by
          have := parseRowAux_length (lines.headD []).length (lines.headD []) 0 st
            rowCells st2 hrow
          omega
        rw [List.length_append, padRow_length rowCells h1, ih lines.tail st2 rest hrest,
            Nat.succ_mul]
        omega

theorem parseAllRows_pad : ∀ (r : Nat) (lines : List (List Char)) (st : AttrState)
    (cells : List Cell),
    parseAllRows lines r st = .ok cells →
    ∃ pre, cells = pre ++ List.replicate ((r - lines.length) * COLS) blankCell ∧
      pre.length = min r lines.length * COLS := by
  intro r
  induction r with
  | zero =>
    intro lines st cells h
    injection h with h'
    exact ⟨[], by simp [← h'], by simp⟩
  | succ k ih =>
    intro lines st cells h
    rw [parseAllRows_succ] at h
    cases hrow : parseRow (lines.headD []) 0 st with
    | error e => rw [hrow] at h; exact Except.noConfusion h
    | ok out =>
      obtain ⟨rowCells, st2⟩ := out
      simp only [hrow] at h
      cases hrest : parseAllRows lines.tail k st2 with
      | error e => rw [hrest] at h; exact Except.noConfusion h
      | ok rest =>
        simp only [hrest] at h
        injection h with h'
        have hrc : rowCells.length ≤ COLS := by
          have := parseRowAux_length (lines.headD []).length (lines.headD []) 0 st
            rowCells st2 hrow
          omega
        cases lines with
        | nil =>
          obtain ⟨pre, hpre, hlen⟩ := ih [] st2 rest hrest
          have hpre0 : pre = [] := List.eq_nil_of_length_eq_zero (by simpa using hlen)
          subst hpre0
          simp only [List.nil_append] at hpre
          injection hrow with hx
          injection hx with h1 h2
          refine ⟨[], ?_, by simp⟩
          rw [← h', ← h1, hpre]
          simp only [padRow, List.length_nil, Nat.sub_zero, List.nil_append,
            List.length_nil, List.append_nil]
          rw [← List.replicate_add]
          congr 1
          simp only [List.length_nil, Nat.sub_zero, Nat.succ_mul]
          omega
        | cons l ls =>
          obtain ⟨pre, hpre, hlen⟩ := ih ls st2 rest hrest
          refine ⟨padRow rowCells ++ pre, ?_, ?_⟩
          · rw [← h', hpre, List.append_assoc]
            have hcount : (k + 1) - (l :: ls).length = k - ls.length := by
              simp only [List.length_cons]
              omega
            rw [hcount]
          · rw [List.length_append, padRow_length rowCells hrc, hlen]
            have hmin : min (k + 1) (l :: ls).length = min k ls.length + 1 := by
              simp only [List.length_cons]
              exact Nat.succ_min_succ k ls.length
            rw [hmin, Nat.succ_mul]
            omega

/-- C2: the parser output has length exactly COLS×ROWS on every raw input:
the first min(ROWS, lines) rows contribute exactly COLS cells each
(truncation plus blank padding per row), and all rows beyond the input's
line count are entirely blank padding. -/
theorem parse_frame_shape (s : String) :
    (parse_ansi_to_cells s).length = TOTAL_CELLS ∧
    ∃ pre, parse_ansi_to_cells s =
        pre ++ List.replicate
          ((ROWS - min ROWS (splitChar '\n' s.data).length) * COLS) blankCell ∧
      pre.length = min ROWS (splitChar '\n' s.data).length * COLS := by
  obtain ⟨cells, h⟩ :=
    parseAllRows_ok ROWS ((splitChar '\n' s.data).take ROWS) initAttrState
  have hlen := parseAllRows_length ROWS _ _ _ h
  have hpure : parse_ansi_to_cells s = cells := by
    rw [parse_ansi_to_cells, parse_ansi_to_cellsE, h]
    show cells ++ List.replicate (TOTAL_CELLS - cells.length) blankCell = cells
    rw [hlen, show TOTAL_CELLS - ROWS * COLS = 0 by
      rw [TOTAL_CELLS, Nat.mul_comm]; omega]
    simp
  constructor
  · rw [hpure, hlen, TOTAL_CELLS, Nat.mul_comm]
  · obtain ⟨pre, hpre, hplen⟩ := parseAllRows_pad ROWS _ _ _ h
    rw [List.length_take] at hpre hplen
    refine ⟨pre, ?_, ?_⟩
    · rw [hpure, hpre]
    · rw [hplen]
      congr 1
      omega

/-- C9: the parser is total: on every raw input the checked-monad parser
(in which every Python list indexing and `int(...)` conversion can raise)
returns a frame, and unknown style codes leave the attribute state
untouched rather than aborting. -/
theorem parse_never_raises :
    (∀ ansi, ∃ cells, parse_ansi_to_cellsE ansi = .ok cells) ∧
    (∀ c st, recognized c = false → applyOne c st = .ok st) := by
  refine ⟨parseE_total, ?_⟩
  intro c st h
  simp only [recognized, Bool.or_eq_false_iff, Bool.and_eq_false_iff,
    beq_eq_false_iff_ne, ne_eq, decide_eq_false_iff_not, Nat.not_le] at h
  have q0 : ¬(c = 0) := by omega
  have q1 : ¬(c = 1) := by omega
  have q22 : ¬(c = 22) := by omega
  have q39 : ¬(c = 39) := by omega
  have q49 : ¬(c = 49) := by omega
  have q30 : ¬(30 ≤ c ∧ c ≤ 37) := by omega
  have q40 : ¬(40 ≤ c ∧ c ≤ 47) := by omega
  have q90 : ¬(90 ≤ c ∧ c ≤ 97) := by omega
  have q100 : ¬(100 ≤ c ∧ c ≤ 107) := by omega
  unfold applyOne
  rw [if_neg q0, if_neg q1, if_neg q22, if_neg q39, if_neg q49, if_neg q30,
      if_neg q40, if_neg q90, if_neg q100]

theorem parse_never_raises_witness :
    (∃ cells, parse_ansi_to_cellsE "\x1b[1;2;3m" = .ok cells) ∧
    applyOne 77 initAttrState = .ok initAttrState :=
  ⟨parse_never_raises.1 "\x1b[1;2;3m",
   parse_never_raises.2 77 initAttrState (by decide)⟩

/-- C10: an escape sequence with an empty code list (`ESC [ m`) is parsed
as the single code 0: it resets the attribute state exactly as an explicit
reset, and the scan continues on the rest of the line. -/
theorem empty_codes_reset (st : AttrState) (rest : List Char) (col : Nat) (h : col < COLS) :
    parseRow ('\x1b' :: '[' :: 'm' :: rest) col st = parseRow rest col initAttrState := by
  rw [parseRow, parseRow, List.length_cons, List.length_cons, List.length_cons,
      parseRowAux_succ, if_pos h]
  exact parseRowAux_fuel (rest.length + 1 + 1) rest.length rest col initAttrState
    (by omega) (by omega)

theorem empty_codes_reset_witness :
    parseRow ('\x1b' :: '[' :: 'm' :: ['A']) 0 ⟨some "ff0000", some "00aa00", 1⟩
      = parseRow ['A'] 0 initAttrState :=
  empty_codes_reset ⟨some "ff0000", some "00aa00", 1⟩ ['A'] 0 (by decide)

/-- C7: the attribute state starts all-unset with normal weight, style
code 0 restores exactly that state from any state, and every cell consumed
from the reset state before any further escape sequence carries unset
foreground, unset background and normal weight. -/
theorem reset_code_blanks :
    initAttrState = ⟨none, none, 0⟩ ∧
    (∀ st, applyOne 0 st = .ok initAttrState) ∧
    (∀ line col cells st2,
      (∀ c ∈ line, c ≠ '\x1b') →
      parseRow line col initAttrState = .ok (cells, st2) →
      st2 = initAttrState ∧
        ∀ cell ∈ cells, cell.fg = none ∧ cell.bg = none ∧ cell.bold = 0) := by
  refine ⟨rfl, fun st => rfl, ?_⟩
  suffices hgen : ∀ (fuel : Nat) (line : List Char) (col : Nat) (cells : List Cell)
      (st2 : AttrState),
      (∀ c ∈ line, c ≠ '\x1b') →
      parseRowAux fuel line col initAttrState = .ok (cells, st2) →
      st2 = initAttrState ∧
        ∀ cell ∈ cells, cell.fg = none ∧ cell.bg = none ∧ cell.bold = 0 by
    intro line col cells st2 hesc hp
    exact hgen line.length line col cells st2 hesc hp
  intro fuel
  induction fuel with
  | zero =>
    intro line col cells st2 hesc hp
    simp only [parseRowAux] at hp
    injection hp with hp'
    injection hp' with h1 h2
    exact ⟨h2.symm, by rw [← h1]; intro cell hc; simp at hc⟩
  | succ f ih =>
    intro line col cells st2 hesc hp
    by_cases hcol : col < COLS
    · have hma : matchAnsi line = none := matchAnsi_none_of_no_esc hesc
      cases line with
      | nil =>
        simp only [parseRowAux, if_pos hcol, hma] at hp
        injection hp with hp'
        injection hp' with h1 h2
        exact ⟨h2.symm, by rw [← h1]; intro cell hc; simp at hc⟩
      | cons ch rest =>
        simp only [parseRowAux, if_pos hcol, hma] at hp
        cases hrec : parseRowAux f rest (col + 1) initAttrState with
        | error e => rw [hrec] at hp; exact Except.noConfusion hp
        | ok out =>
          obtain ⟨cells3, st3⟩ := out
          rw [hrec] at hp
          injection hp with hp'
          injection hp' with h1 h2
          obtain ⟨hst, hcells⟩ :=
            ih rest (col + 1) cells3 st3 (fun c hc => hesc c (by simp [hc])) hrec
          refine ⟨h2 ▸ hst, ?_⟩
          rw [← h1]
          intro cell hc
          rcases List.mem_cons.mp hc with he | hm
          · subst he; exact ⟨rfl, rfl, rfl⟩
          · exact hcells cell hm
    · simp only [parseRowAux, if_neg hcol] at hp
      injection hp with hp'
      injection hp' with h1 h2
      exact ⟨h2.symm, by rw [← h1]; intro cell hc; simp at hc⟩

theorem reset_code_blanks_witness :
    initAttrState = initAttrState ∧
    ∀ cell ∈ [(⟨'A', none, none, 0⟩ : Cell), ⟨'B', none, none, 0⟩],
      cell.fg = none ∧ cell.bg = none ∧ cell.bold = 0 :=
  reset_code_blanks.2.2 ['A', 'B'] 0 [⟨'A', none, none, 0⟩, ⟨'B', none, none, 0⟩]
    initAttrState (by decide) rfl

theorem hex2_le255 : ∀ m, m < 256 →
    ((toHex2 m).length = 2 ∧ (toHex2 m).data.all isHexChar = true) := by decide

theorem hex6_append3 (a b c : Nat) (ha : a < 256) (hb : b < 256) (hc : c < 256) :
    hex6 (toHex2 a ++ toHex2 b ++ toHex2 c) = true := by
  obtain ⟨la, aa⟩ := hex2_le255 a ha
  obtain ⟨lb, ab⟩ := hex2_le255 b hb
  obtain ⟨lc, ac⟩ := hex2_le255 c hc
  rw [hex6, Bool.and_eq_true]
  constructor
  · rw [String.length_append, String.length_append, la, lb, lc]
    rfl
  · rw [String.data_append, String.data_append, List.all_append, List.all_append,
        aa, ab, ac]
    rfl

theorem palette_hex6 : ∀ k, k < 16 → hex6 (COLORS_16.getD k "") = true := by decide

theorem colorOk_none : colorOk none = true := rfl

theorem colorOk_some (s : String) : colorOk (some s) = hex6 s := rfl

theorem palette_get_hex6 : ∀ k s, COLORS_16.get? k = some s → hex6 s = true := by
  intro k s h
  have hk : k < 16 := by
    by_contra hge
    rw [List.get?_eq_none.mpr (by simpa using Nat.le_of_not_lt hge)] at h
    exact Option.noConfusion h
  interval_cases k <;> (injection h with hs; subst hs; decide)

theorem get_256_color_hex6 : ∀ n, n < 256 →
    ∃ s, get_256_color n = .ok s ∧ hex6 s = true := by
  intro n h
  by_cases h16 : n < 16
  · refine ⟨COLORS_16.getD n "", ?_, palette_hex6 n h16⟩
    rw [get_256_color, if_pos h16, colors16_lookup n h16]
  · by_cases h232 : n < 232
    · refine ⟨toHex2 ((n - 16) / 36 * 51) ++ toHex2 ((n - 16) % 36 / 6 * 51) ++
        toHex2 ((n - 16) % 6 * 51), ?_, ?_⟩
      · rw [get_256_color, if_neg h16, if_pos h232]
      · exact hex6_append3 _ _ _ (by omega) (by omega) (by omega)
    · refine ⟨toHex2 ((n - 232) * 10 + 8) ++ toHex2 ((n - 232) * 10 + 8) ++
        toHex2 ((n - 232) * 10 + 8), ?_, ?_⟩
      · rw [get_256_color, if_neg h16, if_neg h232]
      · exact hex6_append3 _ _ _ (by omega) (by omega) (by omega)

theorem applyOne_colorOk (c : Nat) (st : AttrState) (h : stColorOk st = true) :
    ∃ st2, applyOne c st = .ok st2 ∧ stColorOk st2 = true := by
  have hfg : colorOk st.fg = true := by
    rw [stColorOk, Bool.and_eq_true] at h
    exact h.1
  have hbg : colorOk st.bg = true := by
    rw [stColorOk, Bool.and_eq_true] at h
    exact h.2
  by_cases h0 : c = 0
  · exact ⟨⟨none, none, 0⟩, by rw [applyOne, if_pos h0], rfl⟩
  · by_cases h1 : c = 1
    · exact ⟨{ st with bold := 1 }, by rw [applyOne, if_neg h0, if_pos h1],
        by simp [stColorOk, hfg, hbg]⟩
    · by_cases h22 : c = 22
      · exact ⟨{ st with bold := 0 },
          by rw [applyOne, if_neg h0, if_neg h1, if_pos h22],
          by simp [stColorOk, hfg, hbg]⟩
      · by_cases h39 : c = 39
        · exact ⟨{ st with fg := none },
            by rw [applyOne, if_neg h0, if_neg h1, if_neg h22, if_pos h39],
            by simp [stColorOk, colorOk_none, hbg]⟩
        · by_cases h49 : c = 49
          · exact ⟨{ st with bg := none },
              by rw [applyOne, if_neg h0, if_neg h1, if_neg h22, if_neg h39, if_pos h49],
              by simp [stColorOk, colorOk_none, hfg]⟩
          · by_cases h30 : 30 ≤ c ∧ c ≤ 37
            · refine ⟨{ st with fg := some (COLORS_16.getD (c - 30) "") }, ?_, ?_⟩
              · rw [applyOne, if_neg h0, if_neg h1, if_neg h22, if_neg h39, if_neg h49,
                    if_pos h30, colors16_lookup (c - 30) (by omega)]
              · show (colorOk (some (COLORS_16.getD (c - 30) "")) && colorOk st.bg) = true
                simp only [colorOk_some, palette_hex6 (c - 30) (by omega), hbg, Bool.and_self]
            · by_cases h40 : 40 ≤ c ∧ c ≤ 47
              · refine ⟨{ st with bg := some (COLORS_16.getD (c - 40) "") }, ?_, ?_⟩
                · rw [applyOne, if_neg h0, if_neg h1, if_neg h22, if_neg h39, if_neg h49,
                      if_neg h30, if_pos h40, colors16_lookup (c - 40) (by omega)]
                · show (colorOk st.fg && colorOk (some (COLORS_16.getD (c - 40) ""))) = true
                  simp only [colorOk_some, palette_hex6 (c - 40) (by omega), hfg, Bool.and_self]
              · by_cases h90 : 90 ≤ c ∧ c ≤ 97
                · refine ⟨{ st with fg := some (COLORS_16.getD (c - 90 + 8) "") }, ?_, ?_⟩
                  · rw [applyOne, if_neg h0, if_neg h1, if_neg h22, if_neg h39, if_neg h49,
                        if_neg h30, if_neg h40, if_pos h90,
                        colors16_lookup (c - 90 + 8) (by omega)]
                  · show (colorOk (some (COLORS_16.getD (c - 90 + 8) "")) && colorOk st.bg) = true
                    simp only [colorOk_some, palette_hex6 (c - 90 + 8) (by omega), hbg,
                      Bool.and_self]
                · by_cases h100 : 100 ≤ c ∧ c ≤ 107
                  · refine ⟨{ st with bg := some (COLORS_16.getD (c - 100 + 8) "") }, ?_, ?_⟩
                    · rw [applyOne, if_neg h0, if_neg h1, if_neg h22, if_neg h39, if_neg h49,
                          if_neg h30, if_neg h40, if_neg h90, if_pos h100,
                          colors16_lookup (c - 100 + 8) (by omega)]
                    · show (colorOk st.fg && colorOk (some (COLORS_16.getD (c - 100 + 8) ""))) = true
                      simp only [colorOk_some, palette_hex6 (c - 100 + 8) (by omega), hfg,
                        Bool.and_self]
                  · exact ⟨st,
                      by rw [applyOne, if_neg h0, if_neg h1, if_neg h22, if_neg h39,
                        if_neg h49, if_neg h30, if_neg h40, if_neg h90, if_neg h100], h⟩

theorem applyCodes_cons_catchall {c : Nat} {rest : List Nat} {st st2 : AttrState}
    (h1 : ∀ n r2, c = 38 → rest = 5 :: n :: r2 → False)
    (h2 : ∀ r g b r2, c = 38 → rest = 2 :: r :: g :: b :: r2 → False)
    (h3 : ∀ n r2, c = 48 → rest = 5 :: n :: r2 → False)
    (h4 : ∀ r g b r2, c = 48 → rest = 2 :: r :: g :: b :: r2 → False)
    (hap : applyOne c st = .ok st2) :
    applyCodes (c :: rest) st = applyCodes rest st2 := by
  rw [applyCodes.eq_def]
  split
  · rename_i heq; exact absurd heq (by simp)
  · rename_i n rest2 heq
    simp at heq
    exact (h1 n rest2 heq.1 heq.2).elim
  · rename_i r g b rest2 heq
    simp at heq
    exact (h2 r g b rest2 heq.1 heq.2).elim
  · rename_i n rest2 heq
    simp at heq
    exact (h3 n rest2 heq.1 heq.2).elim
  · rename_i r g b rest2 heq
    simp at heq
    exact (h4 r g b rest2 heq.1 heq.2).elim
  · rename_i c2 rest2 hno1 hno2 hno3 hno4 heq
    simp at heq
    rw [← heq.1, ← heq.2, hap]

theorem applyCodes_colorOk : ∀ (codes : List Nat) (st : AttrState),
    codes.all (· ≤ 255) = true → stColorOk st = true →
    ∃ st2, applyCodes codes st = .ok st2 ∧ stColorOk st2 = true := by
  intro codes st
  induction codes, st using applyCodes.induct with
  | case1 st => exact fun _ h => ⟨st, rfl, h⟩
  | case2 n rest st c hc ih =>
    intro hb h
    simp only [List.all_cons, Bool.and_eq_true, decide_eq_true_eq] at hb
    obtain ⟨_, _, hn, hrest⟩ := hb
    obtain ⟨s, hs, hhex⟩ := get_256_color_hex6 n (by omega)
    rw [hc] at hs
    injection hs with hcs
    subst hcs
    have h2 : stColorOk { st with fg := some c } = true := by
      rw [stColorOk, Bool.and_eq_true] at h ⊢
      exact ⟨by simpa [colorOk] using hhex, h.2⟩
    obtain ⟨st2, ha, hok⟩ := ih (by simp [List.all_eq_true] at hrest ⊢; exact hrest) h2
    exact ⟨st2, by simp [applyCodes, hc, ha], hok⟩
  | case3 n rest st e he =>
    intro _ _
    obtain ⟨s, hs⟩ := get_256_color_ok n
    rw [hs] at he
    exact Except.noConfusion he
  | case4 r g b rest st ih =>
    intro hb h
    simp only [List.all_cons, Bool.and_eq_true, decide_eq_true_eq] at hb
    obtain ⟨_, _, hr, hg, hbb, hrest⟩ := hb
    have hhex : hex6 (toHex2 r ++ toHex2 g ++ toHex2 b) = true :=
      hex6_append3 r g b (by omega) (by omega) (by omega)
    have h2 : stColorOk { st with fg := some (toHex2 r ++ toHex2 g ++ toHex2 b) } = true := by
      rw [stColorOk, Bool.and_eq_true] at h ⊢
      exact ⟨by simpa [colorOk] using hhex, h.2⟩
    obtain ⟨st2, ha, hok⟩ := ih (by simp [List.all_eq_true] at hrest ⊢; exact hrest) h2
    exact ⟨st2, by simp [applyCodes, ha], hok⟩
  | case5 n rest st c hc ih =>
    intro hb h
    simp only [List.all_cons, Bool.and_eq_true, decide_eq_true_eq] at hb
    obtain ⟨_, _, hn, hrest⟩ := hb
    obtain ⟨s, hs, hhex⟩ := get_256_color_hex6 n (by omega)
    rw [hc] at hs
    injection hs with hcs
    subst hcs
    have h2 : stColorOk { st with bg := some c } = true := by
      rw [stColorOk, Bool.and_eq_true] at h ⊢
      exact ⟨h.1, by simpa [colorOk] using hhex⟩
    obtain ⟨st2, ha, hok⟩ := ih (by simp [List.all_eq_true] at hrest ⊢; exact hrest) h2
    exact ⟨st2, by simp [applyCodes, hc, ha], hok⟩
  | case6 n rest st e he =>
    intro _ _
    obtain ⟨s, hs⟩ := get_256_color_ok n
    rw [hs] at he
    exact Except.noConfusion he
  | case7 r g b rest st ih =>
    intro hb h
    simp only [List.all_cons, Bool.and_eq_true, decide_eq_true_eq] at hb
    obtain ⟨_, _, hr, hg, hbb, hrest⟩ := hb
    have hhex : hex6 (toHex2 r ++ toHex2 g ++ toHex2 b) = true :=
      hex6_append3 r g b (by omega) (by omega) (by omega)
    have h2 : stColorOk { st with bg := some (toHex2 r ++ toHex2 g ++ toHex2 b) } = true := by
      rw [stColorOk, Bool.and_eq_true] at h ⊢
      exact ⟨h.1, by simpa [colorOk] using hhex⟩
    obtain ⟨st2, ha, hok⟩ := ih (by simp [List.all_eq_true] at hrest ⊢; exact hrest) h2
    exact ⟨st2, by simp [applyCodes, ha], hok⟩
  | case8 c rest st h1 h2 h3 h4 st2 hap ih =>
    intro hb h
    simp only [List.all_cons, Bool.and_eq_true, decide_eq_true_eq] at hb
    obtain ⟨hc255, hrest⟩ := hb
    obtain ⟨st2x, hax, hokx⟩ := applyOne_colorOk c st h
    rw [hap] at hax
    injection hax with hx
    subst hx
    obtain ⟨st3, ha3, hok3⟩ := ih (by simp [List.all_eq_true] at hrest ⊢; exact hrest) hokx
    exact ⟨st3, by rw [applyCodes_cons_catchall h1 h2 h3 h4 hap]; exact ha3, hok3⟩
  | case9 c rest st h1 h2 h3 h4 e hap =>
    intro _ _
    obtain ⟨st2, hok⟩ := applyOne_ok c st
    rw [hok] at hap
    exact Except.noConfusion hap

theorem rowBoundedAux_succ (fuel : Nat) (line : List Char) :
    rowBoundedAux (fuel + 1) line =
      match matchAnsi line with
      | some (cs, rest) =>
        match parseCodes cs with
        | .ok codes => codes.all (· ≤ 255) && rowBoundedAux fuel rest
        | .error _ => false
      | none =>
        match line with
        | [] => true
        | _ :: rest => rowBoundedAux fuel rest := rfl

theorem parseRowAux_colorOk : ∀ (fuel : Nat) (line : List Char) (col : Nat) (st : AttrState)
    (cells : List Cell) (st2 : AttrState),
    rowBoundedAux fuel line = true → stColorOk st = true →
    parseRowAux fuel line col st = .ok (cells, st2) →
    (∀ cell ∈ cells, cellColorOk cell = true) ∧ stColorOk st2 = true := by
  intro fuel
  induction fuel with
  | zero =>
    intro line col st cells st2 hb h hp
    injection hp with hp'
    injection hp' with h1 h2
    refine ⟨?_, h2 ▸ h⟩
    rw [← h1]
    intro cell hc
    simp at hc
  | succ f ih =>
    intro line col st cells st2 hb h hp
    rw [parseRowAux_succ] at hp
    rw [rowBoundedAux_succ] at hb
    by_cases hcol : col < COLS
    · rw [if_pos hcol] at hp
      cases hma : matchAnsi line with
      | some x =>
        obtain ⟨cs, rest⟩ := x
        simp only [hma] at hp hb
        cases hpc : parseCodes cs with
        | error e => rw [hpc] at hp; exact Except.noConfusion hp
        | ok codes =>
          simp only [hpc] at hp hb
          rw [Bool.and_eq_true] at hb
          obtain ⟨h255, hbrest⟩ := hb
          cases hac : applyCodes codes st with
          | error e => rw [hac] at hp; exact Except.noConfusion hp
          | ok st3 =>
            simp only [hac] at hp
            obtain ⟨st4, ha4, hok4⟩ := applyCodes_colorOk codes st h255 h
            rw [hac] at ha4
            injection ha4 with hx
            subst hx
            exact ih rest col st3 cells st2 hbrest hok4 hp
      | none =>
        simp only [hma] at hp hb
        cases line with
        | nil =>
          injection hp with hp'
          injection hp' with h1 h2
          refine ⟨?_, h2 ▸ h⟩
          rw [← h1]
          intro cell hc
          simp at hc
        | cons ch rest =>
          cases hrec : parseRowAux f rest (col + 1) st with
          | error e => simp only [hrec] at hp; exact Except.noConfusion hp
          | ok out =>
            obtain ⟨cells3, st3⟩ := out
            simp only [hrec] at hp
            injection hp with hp'
            injection hp' with h1 h2
            obtain ⟨hcells, hst⟩ := ih rest (col + 1) st cells3 st3 hb h hrec
            refine ⟨?_, h2 ▸ hst⟩
            rw [← h1]
            intro cell hc
            rcases List.mem_cons.mp hc with he | hm
            · subst he
              show (colorOk st.fg && colorOk st.bg) = true
              rw [stColorOk] at h
              exact h
            · exact hcells cell hm
    · rw [if_neg hcol] at hp
      injection hp with hp'
      injection hp' with h1 h2
      refine ⟨?_, h2 ▸ h⟩
      rw [← h1]
      intro cell hc
      simp at hc

theorem parseAllRows_colorOk : ∀ (r : Nat) (lines : List (List Char)) (st : AttrState)
    (cells : List Cell),
    (∀ l ∈ lines, rowBounded l = true) → stColorOk st = true →
    parseAllRows lines r st = .ok cells →
    ∀ cell ∈ cells, cellColorOk cell = true := by
  intro r
  induction r with
  | zero =>
    intro lines st cells hb h hp
    injection hp with hp'
    rw [← hp']
    intro cell hc
    simp at hc
  | succ k ih =>
    intro lines st cells hb h hp
    rw [parseAllRows_succ] at hp
    cases hrow : parseRow (lines.headD []) 0 st with
    | error e => rw [hrow] at hp; exact Except.noConfusion hp
    | ok out =>
      obtain ⟨rowCells, st2⟩ := out
      simp only [hrow] at hp
      cases hrest : parseAllRows lines.tail k st2 with
      | error e => rw [hrest] at hp; exact Except.noConfusion hp
      | ok rest =>
        simp only [hrest] at hp
        injection hp with hp'
        have hbl : rowBounded (lines.headD []) = true := by
          cases lines with
          | nil => rfl
          | cons l ls => exact hb l (by simp)
        obtain ⟨hcells, hst2⟩ := parseRowAux_colorOk (lines.headD []).length
          (lines.headD []) 0 st rowCells st2 hbl h hrow
        intro cell hc
        rw [← hp'] at hc
        rcases List.mem_append.mp hc with hm | hm
        · rw [padRow] at hm
          rcases List.mem_append.mp hm with hm2 | hm2
          · exact hcells cell hm2
          · rw [List.eq_of_mem_replicate hm2]
            rfl
        · refine ih lines.tail st2 rest ?_ hst2 hrest cell hm
          intro l hl
          cases lines with
          | nil => simp at hl
          | cons a as => exact hb l (List.mem_cons_of_mem a (by simpa using hl))

/-- C8 (amended): provided every numeric parameter appearing in the
input's escape sequences is at most 255, every cell of the parser's
output carries a foreground and background that is unset or a lowercase
6-hex-digit string. As stated for arbitrary integers the claim is false:
see the counterexample with index 282. -/
theorem colors_hex6_of_bounded (s : String) (cells : List Cell)
    (hb : ∀ l ∈ splitChar '\n' s.data, rowBounded l = true)
    (hp : parse_ansi_to_cellsE s = .ok cells) :
    ∀ cell ∈ cells, cellColorOk cell = true := by
  obtain ⟨cells0, h0⟩ :=
    parseAllRows_ok ROWS ((splitChar '\n' s.data).take ROWS) initAttrState
  rw [parse_ansi_to_cellsE, h0] at hp
  injection hp with hp'
  intro cell hc
  rw [← hp'] at hc
  rcases List.mem_append.mp hc with hm | hm
  · exact parseAllRows_colorOk ROWS _ _ _
      (fun l hl => hb l (List.mem_of_mem_take hl))
      (show stColorOk initAttrState = true from rfl) h0 cell hm
  · rw [List.eq_of_mem_replicate hm]
    rfl

theorem colors_hex6_of_bounded_witness :
    cellColorOk ⟨'A', some "00aa00", none, 0⟩ = true :=
  colors_hex6_of_bounded "\x1b[38;5;2mA" (parse_ansi_to_cells "\x1b[38;5;2mA")
    (by decide) (parseE_eq_pure _) ⟨'A', some "00aa00", none, 0⟩
    (List.mem_of_mem_head? (by rfl))

/-- C8 counterexample: on input containing `38;5;282` the parser stores
the 9-character color string "1fc1fc1fc" (the Python format produces three
hex digits per channel for gray value 508), so the parsed cell's
foreground is neither unset nor a lowercase 6-hex-digit string. -/
theorem color_hex6_cex :
    ∃ cell ∈ parse_ansi_to_cells "\x1b[38;5;282mA",
      cell.fg = some "1fc1fc1fc" ∧ cellColorOk cell = false := by
  refine ⟨⟨'A', some "1fc1fc1fc", none, 0⟩, ?_, rfl, by decide⟩
  exact List.mem_of_mem_head? (by rfl)

/-- C3: the 256-color mapping: indices below 16 use the base palette;
16–231 map to the cube whose components are the base-6 digits of N−16
(digit i is (N−16) / 6^i % 6) each multiplied by 51; 232–255 map to the
gray 8 + 10(N−232) on all channels; with the three concrete values. -/
theorem color256_formula :
    (∀ n, n < 16 → get_256_color n = .ok (COLORS_16.getD n "")) ∧
    (∀ n, n < 232 → 16 ≤ n →
      get_256_color n = .ok (toHex2 ((n - 16) / 36 % 6 * 51) ++
        toHex2 ((n - 16) / 6 % 6 * 51) ++ toHex2 ((n - 16) % 6 * 51))) ∧
    (∀ n, n < 256 → 232 ≤ n →
      get_256_color n = .ok (toHex2 (8 + 10 * (n - 232)) ++
        toHex2 (8 + 10 * (n - 232)) ++ toHex2 (8 + 10 * (n - 232)))) ∧
    get_256_color 0 = .ok "000000" ∧
    get_256_color 232 = .ok "080808" ∧
    get_256_color 255 = .ok "eeeeee" := by
  refine ⟨by decide, ?_, ?_, by decide, by decide, by decide⟩
  · intro n h232 h16
    rw [get_256_color, if_neg (by omega), if_pos h232]
    have e1 : (n - 16) / 36 * 51 = (n - 16) / 36 % 6 * 51 := by
      have hlt : (n - 16) / 36 < 6 := by omega
      rw [Nat.mod_eq_of_lt hlt]
    have e2 : (n - 16) % 36 / 6 * 51 = (n - 16) / 6 % 6 * 51 := by
      have he : (n - 16) % 36 / 6 = (n - 16) / 6 % 6 := by omega
      rw [he]
    show Except.ok (toHex2 ((n - 16) / 36 * 51) ++ toHex2 ((n - 16) % 36 / 6 * 51) ++
      toHex2 ((n - 16) % 6 * 51)) = _
    rw [e1, e2]
  · intro n h256 h232
    rw [get_256_color, if_neg (by omega), if_neg (by omega)]
    have e : (n - 232) * 10 + 8 = 8 + 10 * (n - 232) := by ring
    show Except.ok (toHex2 ((n - 232) * 10 + 8) ++ toHex2 ((n - 232) * 10 + 8) ++
      toHex2 ((n - 232) * 10 + 8)) = _
    rw [e]

theorem color256_formula_witness :
    get_256_color 100 = .ok (toHex2 ((100 - 16) / 36 % 6 * 51) ++
      toHex2 ((100 - 16) / 6 % 6 * 51) ++ toHex2 ((100 - 16) % 6 * 51)) :=
  color256_formula.2.1 100 (by decide) (by decide)

/-- C5: if the last-sent snapshot equals the current frame cell-for-cell,
`handle_sse` emits nothing for that cycle. -/
theorem no_change_suppression (a b : List Cell) (h : a = b) :
    broadcastStep (some a) b = (none, a) := by
  subst h
  simp [broadcastStep, computeDeltas, computeDeltasAux_self]

theorem no_change_suppression_witness :
    broadcastStep (some [blankCell]) [blankCell] = (none, [blankCell]) :=
  no_change_suppression [blankCell] [blankCell] rfl

/-- C6: on a fresh connection (`last_cells = None`), the first emitted
message is a full message carrying the first available shared frame;
in particular no delta precedes it. -/
theorem first_message_full (trace : List (Option (List Cell))) (m : Msg) (ms : List Msg)
    (h : runConn trace none = m :: ms) :
    ∃ cells, m = Msg.full cells ∧ firstSome trace = some cells := by
  induction trace with
  | nil => simp [runConn] at h
  | cons o rest ih =>
    cases o with
    | none =>
      have hr : runConn (none :: rest) none = runConn rest none := rfl
      rw [hr] at h
      obtain ⟨cells, hm, hf⟩ := ih h
      exact ⟨cells, hm, hf⟩
    | some cells =>
      have hr : runConn (some cells :: rest) none
          = Msg.full cells :: runConn rest (some cells) := rfl
      rw [hr] at h
      injection h with h1 _
      exact ⟨cells, h1.symm, rfl⟩

theorem first_message_full_witness :
    ∃ cells, Msg.full [blankCell] = Msg.full cells ∧
      firstSome [none, some [blankCell]] = some cells :=
  first_message_full [none, some [blankCell]] (Msg.full [blankCell]) [] rfl

/-- C4: when the frames differ in more than half the cells, `handle_sse`
emits a full message equal to the current frame and stores it as the new
snapshot. -/
theorem full_frame_fallback (a b : List Cell)
    (ha : a.length = TOTAL_CELLS) (hb : b.length = TOTAL_CELLS)
    (hk : TOTAL_CELLS / 2 < diffCount b a) :
    broadcastStep (some a) b = (some (Msg.full b), b) := by
  have hlen : (computeDeltas b a).length = diffCount b a :=
    computeDeltasAux_length b a 0
  have ht : TOTAL_CELLS = 5676 := rfl
  have h0 : ¬ ((computeDeltas b a).length = 0) := by omega
  have h1 : TOTAL_CELLS < 2 * (computeDeltas b a).length := by omega
  simp [broadcastStep, h0, h1]

theorem full_frame_fallback_witness :
    broadcastStep (some frameA2) frameB2 = (some (Msg.full frameB2), frameB2) :=
  full_frame_fallback frameA2 frameB2
    (by rw [frameA2, List.length_replicate]; decide)
    (by rw [frameB2, List.length_replicate]; decide)
    (by rw [frameB2, frameA2, diffCount_replicate cellX blankCell (by decide) 5676]
        decide)

/-- C1: when the frames differ in k cells with 0 < k ≤ TOTAL_CELLS / 2,
`handle_sse` emits a delta message listing exactly the differing indices,
each paired with the current frame's cell there; its length is k, applying
it to the old snapshot reproduces the current frame exactly, and the
current frame is stored as the new snapshot. -/
theorem delta_message_correct (a b : List Cell)
    (ha : a.length = TOTAL_CELLS) (hb : b.length = TOTAL_CELLS)
    (hpos : 0 < diffCount b a) (hhalf : diffCount b a ≤ TOTAL_CELLS / 2) :
    broadcastStep (some a) b = (some (Msg.delta (computeDeltas b a)), b) ∧
    (computeDeltas b a).length = diffCount b a ∧
    (∀ i c, (i, c) ∈ computeDeltas b a ↔ (b.get? i ≠ a.get? i ∧ b.get? i = some c)) ∧
    applyDelta a (computeDeltas b a) = b := by
  have hlen : (computeDeltas b a).length = diffCount b a :=
    computeDeltasAux_length b a 0
  have ht : TOTAL_CELLS = 5676 := rfl
  have h0 : ¬ ((computeDeltas b a).length = 0) := by omega
  have h1 : ¬ (TOTAL_CELLS < 2 * (computeDeltas b a).length) := by omega
  refine ⟨by simp [broadcastStep, h0, h1], hlen, ?_, ?_⟩
  · intro i c
    rw [computeDeltas, mem_computeDeltasAux b a 0 i c]
    constructor
    · rintro ⟨k, hk, h2, o, h3, h4⟩
      have hik : i = k := by omega
      subst hik
      refine ⟨?_, h2⟩
      rw [h2, h3]
      simp [h4]
    · rintro ⟨hne, h2⟩
      refine ⟨i, by omega, h2, ?_⟩
      cases h3 : a.get? i with
      | none =>
        have hal : a.length ≤ i := List.get?_eq_none.mp h3
        have hbl : b.length ≤ i := by omega
        rw [List.get?_eq_none.mpr hbl] at h2
        exact Option.noConfusion h2
      | some o =>
        exact ⟨o, rfl, fun hco => hne (by rw [h2, h3, hco])⟩
  · have := applyDelta_computeDeltasAux b a [] (by omega)
    simpa [computeDeltas] using this

theorem delta_message_correct_witness :
    broadcastStep (some frameA1) frameB1
        = (some (Msg.delta (computeDeltas frameB1 frameA1)), frameB1) ∧
    (computeDeltas frameB1 frameA1).length = diffCount frameB1 frameA1 ∧
    (∀ i c, (i, c) ∈ computeDeltas frameB1 frameA1 ↔
      (frameB1.get? i ≠ frameA1.get? i ∧ frameB1.get? i = some c)) ∧
    applyDelta frameA1 (computeDeltas frameB1 frameA1) = frameB1 :=
  delta_message_correct frameA1 frameB1
    (by rw [frameA1, List.length_cons, List.length_replicate]; decide)
    (by rw [frameB1, List.length_cons, List.length_replicate]; decide)
    (by rw [frameB1, frameA1, diffCount_cons, diffCount_self,
          if_pos (show blankCell ≠ cellX by decide)]
        decide)
    (by rw [frameB1, frameA1, diffCount_cons, diffCount_self,
          if_pos (show blankCell ≠ cellX by decide)]
        decide)
